import Mathlib

/-!
Verification of the incremental markdown reconciliation core
(`src/components/markdown-viewer/{morph,utils,markdown-viewer}.ts`).

Modelling conventions:
* JS strings are Lean `String`s; JS `str.length` and `charCodeAt` operate on
  UTF-16 code units, modelled by `utf16CodeUnits` / `jsLength`.
* JS 32-bit integer operations (`<< 5`, `^`, `>>> 0`) wrap modulo `2 ^ 32`;
  they are modelled with explicit `% 4294967296` on `Nat`
  (`(h << 5) + h` is written as `h * 33`).
* JS floating-point numbers in the pacing controller are modelled as exact
  rationals (`ℚ`); the formulas involved are plain field arithmetic.
* The external structural patch primitive (Idiomorph) and the markup parser
  (`temp.innerHTML = ...; temp.children`) are external collaborators: a
  container's top-level children are modelled as a `List String` of their
  serializations, a parsed markup as the list of serializations of its
  top-level nodes, and the patch primitive as an abstract function
  (total `String → String → String`, or `String → String → Option String`
  where its failure matters) that rewrites one node in place.
-/

set_option maxRecDepth 4000

namespace MarkdownViewer

/-- UTF-16 code units of a string, as JS `charCodeAt` enumerates them:
code points below `0x10000` give one unit, the rest a surrogate pair. -/
def utf16CodeUnits (s : String) : List Nat :=
  s.data.flatMap fun c =>
    if c.toNat < 65536 then [c.toNat]
    else [55296 + (c.toNat - 65536) / 1024, 56320 + (c.toNat - 65536) % 1024]

/-- JS `str.length`: the number of UTF-16 code units. -/
def jsLength (s : String) : Nat := (utf16CodeUnits s).length

/-- One step of the djb2 accumulator from `simpleHash` in `morph.ts`:
`hash = ((hash << 5) + hash) ^ str.charCodeAt(i)`.  JS evaluates this with
int32 wrap-around, i.e. modulo `2 ^ 32`; `(h << 5) + h = h * 33`. -/
def hashStep (h c : Nat) : Nat := (h * 33 % 4294967296) ^^^ c

/-- `simpleHash` from `morph.ts`: djb2 accumulator seeded with 5381, output
`` `${str.length}:${hash >>> 0}` ``. -/
def simpleHash (s : String) : String :=
  toString (jsLength s) ++ ":" ++ toString ((utf16CodeUnits s).foldl hashStep 5381)

/-- The hash accumulator as the claim words it: start from 5381 and for each
character code `c` set `h := ((h * 33) XOR c) % 2 ^ 32`.  This definition
follows the claim text and is compared with `simpleHash` (from the source)
in the C8 theorem. -/
def simpleHashClaimAcc (s : String) : Nat :=
  (utf16CodeUnits s).foldl (fun h c => (h * 33 ^^^ c) % 4294967296) 5381

/-- Stats of one reconciliation pass (`MorphStats` in `morph.ts`). -/
structure MorphStats where
  updated : Nat
  skipped : Nat
  added : Nat
  removed : Nat
deriving DecidableEq

/-- Per-container reconciliation state (`ElementMorphState` in `morph.ts`). -/
structure ElementMorphState where
  prevHashes : List String
  contentHash : String
  lastStats : MorphStats
deriving DecidableEq

/-- The state `getState` in `morph.ts` creates for a container it has not
seen before. -/
def initialMorphState : ElementMorphState :=
  { prevHashes := [], contentHash := "", lastStats := ⟨0, 0, 0, 0⟩ }

/-- `morphContentSync` from `morph.ts`.  The container content is abstracted
to its serialized markup (a `String`) and the external Idiomorph patch
primitive to a total rewrite function `morph`.  Returns the container content
and state after the call. -/
def morphContentSync (morph : String → String → String)
    (content : String) (state : ElementMorphState) (newHtml : String) :
    String × ElementMorphState :=
  let newHash := simpleHash newHtml
  if state.contentHash = newHash then (content, state)
  else (morph content newHtml, { state with contentHash := newHash })

/-- `morphContentSync` with the Idiomorph call modelled as fallible:
`patch old new = none` models the structural patch primitive throwing.  The
error case carries the state and content at the moment the exception
propagates; note the source stores the new hash before invoking the patch. -/
def morphContentSyncE (patch : String → String → Option String)
    (content : String) (state : ElementMorphState) (newHtml : String) :
    Except (ElementMorphState × String) (ElementMorphState × String) :=
  let newHash := simpleHash newHtml
  if state.contentHash = newHash then .ok (state, content)
  else
    match patch content newHtml with
    | some newContent => .ok ({ state with contentHash := newHash }, newContent)
    | none => .error ({ state with contentHash := newHash }, content)

/-- The module-level deferred-morph slot of `morph.ts` (`pendingMorph`,
`pendingElement`, `pendingHtml`) together with the per-container WeakMap of
states and the containers themselves.  Containers are identified by `Nat`;
a scheduled animation frame is modelled by the pending fields being `some`. -/
structure GlobalMorph where
  states : Nat → ElementMorphState
  contents : Nat → String
  pendingElement : Option Nat
  pendingHtml : Option String

/-- The module state before any morph call: empty WeakMap (every container
maps to the initial state), no pending request. -/
def initialGlobalMorph : GlobalMorph :=
  { states := fun _ => initialMorphState
    contents := fun _ => ""
    pendingElement := none
    pendingHtml := none }

/-- The synchronous part of `morphContent` from `morph.ts`: hash fast path,
then overwrite the single pending element/html slot, cancelling whatever
request was pending (for any container). -/
def morphContentSched (g : GlobalMorph) (e : Nat) (newHtml : String) : GlobalMorph :=
  if (g.states e).contentHash = simpleHash newHtml then g
  else { g with pendingElement := some e, pendingHtml := some newHtml }

/-- The animation-frame callback scheduled by `morphContent`: if a request is
pending, store the new hash for the pending element, patch that element, and
clear the slot. -/
def morphFire (patch : String → String → String) (g : GlobalMorph) : GlobalMorph :=
  match g.pendingElement, g.pendingHtml with
  | some e, some html =>
      { states := fun x =>
          if x = e then { g.states e with contentHash := simpleHash html } else g.states x
        contents := fun x => if x = e then patch (g.contents e) html else g.contents x
        pendingElement := none
        pendingHtml := none }
  | _, _ => { g with pendingElement := none, pendingHtml := none }

/-- The body of the animation-frame callback for the pending container, with
the patch primitive fallible (the hash is stored before the patch is
invoked, exactly as in the source). -/
def morphRafFireE (patch : String → String → Option String)
    (content : String) (state : ElementMorphState) (newHtml : String) :
    Except (ElementMorphState × String) (ElementMorphState × String) :=
  match patch content newHtml with
  | some newContent => .ok ({ state with contentHash := simpleHash newHtml }, newContent)
  | none => .error ({ state with contentHash := simpleHash newHtml }, content)

/-- The index loop of `morphContentOptimized` (`for i in 0..maxLen-1`):
children are compared positionally; a new child with no old counterpart is
appended, a hash mismatch patches the old child in place, a hash match skips
it; indices past the new length are left for the removal phase.  Returns the
children after the loop, the fresh hash list, and the accumulated stats. -/
def morphGo (patch : String → String → String) (prev : List String) :
    Nat → List String → List String → List String × List String × MorphStats
  | _, olds, [] => (olds, [], ⟨0, 0, 0, 0⟩)
  | i, [], n :: ns =>
      let r := morphGo patch prev (i + 1) [] ns
      (n :: r.1, simpleHash n :: r.2.1, { r.2.2 with added := r.2.2.added + 1 })
  | i, o :: os, n :: ns =>
      let r := morphGo patch prev (i + 1) os ns
      if prev.get? i = some (simpleHash n) then
        (o :: r.1, simpleHash n :: r.2.1, { r.2.2 with skipped := r.2.2.skipped + 1 })
      else
        (patch o n :: r.1, simpleHash n :: r.2.1, { r.2.2 with updated := r.2.2.updated + 1 })

/-- `morphContentOptimized` from `morph.ts`: positional top-level
reconciliation.  The container is the list of its top-level children's
serializations; `newChildren` is the markup parsed into top-level nodes (the
parse itself is the external renderer).  After the loop, trailing children
beyond the new length are removed.  Returns the new children, the updated
state (fresh `prevHashes`, fresh `lastStats`, untouched `contentHash`), and
the did-anything-change boolean. -/
def morphContentOptimized (patch : String → String → String)
    (children : List String) (state : ElementMorphState)
    (newChildren : List String) : List String × ElementMorphState × Bool :=
  let r := morphGo patch state.prevHashes 0 children newChildren
  let newLen := newChildren.length
  let stats : MorphStats := { r.2.2 with removed := r.1.length - newLen }
  (r.1.take newLen,
   { state with prevHashes := r.2.1, lastStats := stats },
   decide (0 < stats.updated) || decide (0 < stats.added) || decide (0 < stats.removed))

/-- One live cache entry.  The `cache` and `sizeEstimates` Maps of `LRUCache`
in `utils.ts` are keyed identically and always updated together, so they are
merged into one association list of (key, value, size estimate). -/
structure CacheEntry where
  key : String
  value : String
  size : Nat
deriving DecidableEq

/-- `CacheStats` from `utils.ts`. -/
structure CacheStats where
  entries : Nat
  estimatedBytes : Int
deriving DecidableEq

/-- `LRUCache` from `utils.ts` for string values: the entry list in recency
order (oldest first, as JS `Map` insertion order), the separately tracked
`totalBytes` counter, and the capacity bounds.  `maxBytes = none` models the
constructor default `Infinity`. -/
structure LRUCache where
  entries : List CacheEntry
  totalBytes : Int
  maxEntries : Nat
  maxBytes : Option Nat
deriving DecidableEq

/-- A freshly constructed cache partition. -/
def LRUCache.empty (maxEntries : Nat) (maxBytes : Option Nat) : LRUCache :=
  { entries := [], totalBytes := 0, maxEntries := maxEntries, maxBytes := maxBytes }

/-- `this.totalBytes + size > this.maxBytes`, false for the `Infinity`
default. -/
def overBytes (maxBytes : Option Nat) (v : Int) : Bool :=
  match maxBytes with
  | none => false
  | some m => decide ((m : Int) < v)

/-- `estimateSize` from `utils.ts` for string values: `value.length * 2`
(UTF-16 code units, two size units per unit). -/
def estimateSize (value : String) : Nat := jsLength value * 2

/-- `get` from `utils.ts`: return the value if present and move the entry to
the most-recently-used (last) position; sizes and the byte counter are not
touched. -/
def LRUCache.get (c : LRUCache) (key : String) : Option String × LRUCache :=
  match c.entries.find? (fun e => e.key == key) with
  | none => (none, c)
  | some e =>
      (some e.value,
       { c with entries := c.entries.eraseP (fun x => x.key == key) ++ [e] })

/-- The "if key exists, remove old size" prologue of `set`: drop the prior
entry for the key and subtract its stored size estimate from the counter. -/
def deleteForSet (c : LRUCache) (key : String) : List CacheEntry × Int :=
  match c.entries.find? (fun e => e.key == key) with
  | some e => (c.entries.eraseP (fun x => x.key == key), c.totalBytes - (e.size : Int))
  | none => (c.entries, c.totalBytes)

/-- The eviction `while` loop of `set`: evict the oldest entry while the
cache is over either cap and nonempty.  The source reads the oldest key and
guards the deletion with a JS truthiness test (`if (firstKey)`), so an
empty-string oldest key makes the `while` loop spin forever; that divergence
is modelled by `none`. -/
def evictLoop (maxEntries : Nat) (maxBytes : Option Nat) (newSize : Nat) :
    List CacheEntry → Int → Option (List CacheEntry × Int)
  | [], tb => some ([], tb)
  | e :: es, tb =>
      if maxEntries ≤ (e :: es).length ∨ overBytes maxBytes (tb + newSize) = true then
        if e.key = "" then none
        else evictLoop maxEntries maxBytes newSize es (tb - (e.size : Int))
      else some (e :: es, tb)

/-- `set` from `utils.ts`: remove any prior entry for the key (adjusting the
byte counter), estimate the size when no hint is given, run the eviction
loop, then insert at the most-recently-used end. -/
def LRUCache.set (c : LRUCache) (key value : String) (sizeBytes : Option Nat) :
    Option LRUCache :=
  let size := sizeBytes.getD (estimateSize value)
  match evictLoop c.maxEntries c.maxBytes size (deleteForSet c key).1 (deleteForSet c key).2 with
  | none => none
  | some (es, tb) =>
      some { c with entries := es ++ [⟨key, value, size⟩], totalBytes := tb + (size : Int) }

/-- `has` from `utils.ts`: membership without promotion. -/
def LRUCache.has (c : LRUCache) (key : String) : Bool :=
  c.entries.any (fun e => e.key == key)

/-- `clear` from `utils.ts`. -/
def LRUCache.clear (c : LRUCache) : LRUCache :=
  { c with entries := [], totalBytes := 0 }

/-- The loop of `evictOldest`: remove up to `count` oldest entries, adjusting
the byte counter; the JS `!key` test breaks out early when the oldest key is
the empty string. -/
def evictOldestGo : Nat → List CacheEntry → Int → List CacheEntry × Int
  | 0, es, tb => (es, tb)
  | _ + 1, [], tb => ([], tb)
  | n + 1, e :: es, tb =>
      if e.key = "" then (e :: es, tb)
      else evictOldestGo n es (tb - (e.size : Int))

/-- `evictOldest` from `utils.ts`. -/
def LRUCache.evictOldest (c : LRUCache) (count : Nat) : LRUCache :=
  { c with
    entries := (evictOldestGo count c.entries c.totalBytes).1
    totalBytes := (evictOldestGo count c.entries c.totalBytes).2 }

/-- The `stats` getter from `utils.ts`. -/
def LRUCache.stats (c : LRUCache) : CacheStats :=
  { entries := c.entries.length, estimatedBytes := c.totalBytes }

/-- One cache operation; C7 ranges over arbitrary sequences of these. -/
inductive CacheOp where
  | getOp (key : String)
  | setOp (key value : String) (sizeBytes : Option Nat)
  | hasOp (key : String)
  | evictOldestOp (count : Nat)
  | clearOp

/-- Apply one operation to the cache state (`none` = the operation diverges,
see `evictLoop`). -/
def applyOp (c : LRUCache) : CacheOp → Option LRUCache
  | .getOp key => some (c.get key).2
  | .setOp key value sizeBytes => c.set key value sizeBytes
  | .hasOp _ => some c
  | .evictOldestOp count => some (c.evictOldest count)
  | .clearOp => some c.clear

/-- Run a sequence of cache operations. -/
def runOps : LRUCache → List CacheOp → Option LRUCache
  | c, [] => some c
  | c, op :: ops => (applyOp c op).bind fun c2 => runOps c2 ops

/-- Sum of the stored size estimates of the live entries. -/
def entriesSizeSum (es : List CacheEntry) : Int :=
  (es.map fun e => (e.size : Int)).sum

/-- The tracked-bytes invariant of C7. -/
def cacheInv (c : LRUCache) : Prop := c.totalBytes = entriesSizeSum c.entries

/-- Scenario D of the spec (part of C3): a partition with `maxEntries = 3`
receives four inserts in order. -/
def scenarioD : Option LRUCache :=
  (LRUCache.empty 3 (some 1000000)).set "k1" "v1" none >>= fun c1 =>
  c1.set "k2" "v2" none >>= fun c2 =>
  c2.set "k3" "v3" none >>= fun c3 =>
  c3.set "k4" "v4" none

/-- `_adjustAdaptiveThrottle` from `markdown-viewer.ts`.  `baseThrottle` is
the `throttleMs` property, `adaptive` the `_adaptiveThrottleMs` field (`0` is
the sentinel meaning "unset"; JS `||` falls back to the base), `d` the last
measured morph duration.  JS numbers are modelled as exact rationals;
`targetMorphBudget = 0.25` and `smoothingFactor = 0.3` appear as `1 / 4` and
`3 / 10`. -/
def adjustAdaptiveThrottle (baseThrottle adaptive d : ℚ) : ℚ :=
  let idealThrottle := d / (1 / 4)
  let currentThrottle := if adaptive = 0 then baseThrottle else adaptive
  let newThrottle := currentThrottle + (idealThrottle - currentThrottle) * (3 / 10)
  max baseThrottle (min (max (baseThrottle * 4) 200) newThrottle)

/-- `_effectiveThrottleMs` from `markdown-viewer.ts`:
`_adaptiveThrottleMs || throttleMs`. -/
def effectiveThrottleMs (adaptive baseThrottle : ℚ) : ℚ :=
  if adaptive = 0 then baseThrottle else adaptive

/-- `clamp(x, lo, hi)` as the claim words it (the source writes
`Math.max(lo, Math.min(hi, x))`). -/
def clampQ (lo hi x : ℚ) : ℚ := max lo (min hi x)

/-- Scenario E of the spec (C9): the `_adaptiveThrottleMs` field over
repeated `recordDuration(40)` with `throttleMs = 50`, starting from the
field's initial value `0`. -/
def pacingAdaptive : Nat → ℚ
  | 0 => 0
  | n + 1 => adjustAdaptiveThrottle 50 (pacingAdaptive n) 40

/-- The operative interval of scenario E after `n` recordings. -/
def pacingOperative (n : Nat) : ℚ := effectiveThrottleMs (pacingAdaptive n) 50

end MarkdownViewer

namespace MarkdownViewer

theorem xor_mod_two_pow (a b k : Nat) (hb : b < 2 ^ k) :
    (a ^^^ b) % 2 ^ k = (a % 2 ^ k) ^^^ b := by
  apply Nat.eq_of_testBit_eq
  intro i
  by_cases h : i < k
  · simp [Nat.testBit_mod_two_pow, Nat.testBit_xor, h]
  · have hb' : b.testBit i = false :=
      Nat.testBit_lt_two_pow
        (lt_of_lt_of_le hb (Nat.pow_le_pow_right (by norm_num) (le_of_not_lt h)))
    simp [Nat.testBit_mod_two_pow, Nat.testBit_xor, h, hb']

theorem utf16CodeUnits_lt (s : String) : ∀ c ∈ utf16CodeUnits s, c < 65536 := by
  intro c hc
  unfold utf16CodeUnits at hc
  simp only [List.mem_flatMap] at hc
  obtain ⟨ch, _, hmem⟩ := hc
  have hch : ch.toNat < 1114112 := by
    have hv := ch.valid
    rcases hv with h | h
    · exact lt_trans h (by norm_num)
    · exact h.2
  by_cases h : ch.toNat < 65536
  · simp only [h, if_true] at hmem
    simp only [List.mem_singleton] at hmem
    omega
  · simp only [h, if_false] at hmem
    have hdiv : (ch.toNat - 65536) / 1024 < 1024 := by
      rw [Nat.div_lt_iff_lt_mul (by norm_num)]
      omega
    have hmod : (ch.toNat - 65536) % 1024 < 1024 := Nat.mod_lt _ (by norm_num)
    have hor : c = 55296 + (ch.toNat - 65536) / 1024 ∨ c = 56320 + (ch.toNat - 65536) % 1024 := by
      simpa using hmem
    rcases hor with h1 | h1 <;> rw [h1]
    · omega
    · omega

theorem hashStep_eq_claimStep (h c : Nat) (hc : c < 65536) :
    hashStep h c = (h * 33 ^^^ c) % 4294967296 := by
  have h32 : (4294967296 : Nat) = 2 ^ 32 := by norm_num
  unfold hashStep
  rw [h32, xor_mod_two_pow _ _ _ (lt_trans hc (by norm_num))]

theorem hashStep_lt (h c : Nat) (hc : c < 65536) : hashStep h c < 4294967296 := by
  have h32 : (4294967296 : Nat) = 2 ^ 32 := by norm_num
  unfold hashStep
  rw [h32]
  exact Nat.xor_lt_two_pow (by rw [← h32]; exact Nat.mod_lt _ (by norm_num))
    (lt_trans hc (by norm_num))

theorem hash_fold_eq (l : List Nat) (hl : ∀ c ∈ l, c < 65536) (h : Nat) :
    l.foldl hashStep h = l.foldl (fun h c => (h * 33 ^^^ c) % 4294967296) h := by
  induction l generalizing h with
  | nil => rfl
  | cons c cs ih =>
      have hc : c < 65536 := hl c (List.mem_cons_self c cs)
      have hcs : ∀ x ∈ cs, x < 65536 := fun x hx => hl x (List.mem_cons_of_mem c hx)
      simp only [List.foldl_cons]
      rw [hashStep_eq_claimStep h c hc]
      exact ih hcs _

/-- C8: for every string `s`, `hash(s)` is the string `"<L>:<H>"` where `L` is
the (UTF-16) length of `s` and `H` is the unsigned 32-bit accumulator obtained
from 5381 by `h := ((h * 33) XOR c) % 2 ^ 32` over the character codes of `s`
in order. -/
theorem simpleHash_eq_claim_form (s : String) :
    simpleHash s = toString (jsLength s) ++ ":" ++ toString (simpleHashClaimAcc s) := by
  unfold simpleHash simpleHashClaimAcc
  rw [hash_fold_eq _ (utf16CodeUnits_lt s)]

theorem morphGo_spec (patch : String → String → String) (prev : List String) :
    ∀ (news olds : List String) (i : Nat),
      (morphGo patch prev i olds news).1.length = max olds.length news.length ∧
      (morphGo patch prev i olds news).2.1.length = news.length ∧
      (morphGo patch prev i olds news).2.2.updated + (morphGo patch prev i olds news).2.2.skipped
        = min olds.length news.length ∧
      (morphGo patch prev i olds news).2.2.added = news.length - olds.length ∧
      (morphGo patch prev i olds news).2.2.removed = 0 := by
  intro news
  induction news with
  | nil =>
      intro olds i
      simp [morphGo]
  | cons n ns ih =>
      intro olds i
      cases olds with
      | nil =>
          obtain ⟨h1, h2, h3, h4, h5⟩ := ih [] (i + 1)
          simp only [morphGo, List.length_cons, List.length_nil] at h1 h2 h3 h4 h5 ⊢
          refine ⟨by omega, by omega, by omega, by omega, by omega⟩
      | cons o os =>
          obtain ⟨h1, h2, h3, h4, h5⟩ := ih os (i + 1)
          simp only [morphGo, List.length_cons] at h1 h2 h3 h4 h5 ⊢
          by_cases hh : prev.get? i = some (simpleHash n) <;>
            simp only [hh, if_true, if_false, List.length_cons] <;>
            refine ⟨by omega, by omega, by omega, by omega, by omega⟩

/-- C1: a positional reconciliation pass over `n_old` current children and
`n_new` parsed top-level nodes yields stats with
`updated + skipped <= min(n_old, n_new)`, `added = max(0, n_new - n_old)`
(as truncated `Nat` subtraction) and `removed = max(0, n_old - n_new)`, and
returns `true` exactly when `updated + added + removed > 0`. -/
theorem morphContentOptimized_stats (patch : String → String → String)
    (children : List String) (state : ElementMorphState) (newChildren : List String) :
    ((morphContentOptimized patch children state newChildren).2.1.lastStats.updated +
        (morphContentOptimized patch children state newChildren).2.1.lastStats.skipped
      ≤ min children.length newChildren.length) ∧
    (morphContentOptimized patch children state newChildren).2.1.lastStats.added
      = newChildren.length - children.length ∧
    (morphContentOptimized patch children state newChildren).2.1.lastStats.removed
      = children.length - newChildren.length ∧
    ((morphContentOptimized patch children state newChildren).2.2 = true ↔
      0 < (morphContentOptimized patch children state newChildren).2.1.lastStats.updated +
        (morphContentOptimized patch children state newChildren).2.1.lastStats.added +
        (morphContentOptimized patch children state newChildren).2.1.lastStats.removed) := by
  obtain ⟨h1, h2, h3, h4, h5⟩ := morphGo_spec patch state.prevHashes newChildren children 0
  simp only [morphContentOptimized, Bool.or_eq_true, decide_eq_true_eq]
  refine ⟨by omega, by omega, by omega, by omega⟩

/-- C6: immediately after a positional reconciliation pass, the stored
per-child hash list has the same length as the container's child list. -/
theorem morphContentOptimized_childHashes_length (patch : String → String → String)
    (children : List String) (state : ElementMorphState) (newChildren : List String) :
    (morphContentOptimized patch children state newChildren).2.1.prevHashes.length =
      (morphContentOptimized patch children state newChildren).1.length := by
  obtain ⟨h1, h2, h3, h4, h5⟩ := morphGo_spec patch state.prevHashes newChildren children 0
  simp only [morphContentOptimized, List.length_take]
  omega

/-- C2: a second synchronous whole-tree patch call with identical markup is a
no-op — the container content and the stored whole-content hash produced by
the first call are returned unchanged. -/
theorem morphContentSync_idempotent (morph : String → String → String)
    (content : String) (state : ElementMorphState) (newHtml : String) :
    morphContentSync morph (morphContentSync morph content state newHtml).1
      (morphContentSync morph content state newHtml).2 newHtml =
      morphContentSync morph content state newHtml := by
  unfold morphContentSync
  by_cases h : state.contentHash = simpleHash newHtml <;> simp [h]

/-- C5 counterexample: deferred whole-tree patch requests are NOT tracked per
container.  Scheduling a patch for container 1 supersedes the pending patch
of the distinct container 0: after the two calls only container 1 is pending,
and when the deferred callback fires, container 0 never receives the markup
it was scheduled with (its content stays empty). -/
theorem morphContent_cross_container_cancel_cex :
    (morphContentSched initialGlobalMorph 0 "x").pendingElement = some 0 ∧
    (morphContentSched (morphContentSched initialGlobalMorph 0 "x") 1 "y").pendingElement
      = some 1 ∧
    (morphContentSched (morphContentSched initialGlobalMorph 0 "x") 1 "y").pendingHtml
      = some "y" ∧
    (morphFire (fun _ newHtml => newHtml)
        (morphContentSched (morphContentSched initialGlobalMorph 0 "x") 1 "y")).contents 0
      = "" := by
  decide

/-- C5 amended: pending deferred patch work lives in a single module-wide
slot shared by all containers; a scheduling call for any container
overwrites that slot (superseding a pending request even of a different
container) unless its hash fast path hits, and performs no synchronous
mutation of states or contents. -/
theorem morphContentSched_single_slot (g : GlobalMorph) (e : Nat) (newHtml : String) :
    (morphContentSched g e newHtml).pendingElement =
      (if (g.states e).contentHash = simpleHash newHtml then g.pendingElement else some e) ∧
    (morphContentSched g e newHtml).pendingHtml =
      (if (g.states e).contentHash = simpleHash newHtml then g.pendingHtml else some newHtml) ∧
    (morphContentSched g e newHtml).states = g.states ∧
    (morphContentSched g e newHtml).contents = g.contents := by
  unfold morphContentSched
  by_cases h : (g.states e).contentHash = simpleHash newHtml <;> simp [h]

/-- C10: in both the synchronous and the deferred whole-tree patch the new
hash is stored before the patch primitive runs; if the primitive throws, the
error escapes with the new hash stored and the content unmutated, and an
immediately repeated call with the same markup takes the hash-skip fast path
(the synchronous one returns without patching, the deferred one does not
even schedule). -/
theorem morph_hash_stored_before_patch (patch : String → String → Option String)
    (content : String) (state : ElementMorphState) (newHtml : String)
    (s' : ElementMorphState) (c' : String)
    (hsync : morphContentSyncE patch content state newHtml = .error (s', c')) :
    s'.contentHash = simpleHash newHtml ∧
    c' = content ∧
    morphRafFireE patch content state newHtml = .error (s', c') ∧
    morphContentSyncE patch c' s' newHtml = .ok (s', c') ∧
    ∀ (g : GlobalMorph) (e : Nat), g.states e = s' → morphContentSched g e newHtml = g := by
  unfold morphContentSyncE at hsync
  by_cases h : state.contentHash = simpleHash newHtml
  · simp [h] at hsync
  · simp only [h, if_false] at hsync
    cases hp : patch content newHtml with
    | some newContent => simp [hp] at hsync
    | none =>
        simp only [hp] at hsync
        have hs : s' = { state with contentHash := simpleHash newHtml } ∧ c' = content := by
          have := hsync
          simp only [Except.error.injEq, Prod.mk.injEq] at this
          exact ⟨this.1.symm, this.2.symm⟩
        obtain ⟨hs1, hs2⟩ := hs
        subst hs1
        subst hs2
        refine ⟨rfl, rfl, ?_, ?_, ?_⟩
        · unfold morphRafFireE
          simp [hp]
        · unfold morphContentSyncE
          simp
        · intro g e hg
          unfold morphContentSched
          rw [hg]
          simp

/-- Witness for C10 at a concrete input: a patch primitive that always
throws, empty container, fresh state, markup `"a"`. -/
theorem morph_hash_stored_before_patch_witness :
    (morphContentSyncE (fun _ _ => none) "" initialMorphState "a"
      = .error (⟨[], simpleHash "a", ⟨0, 0, 0, 0⟩⟩, "")) ∧
    ((⟨[], simpleHash "a", ⟨0, 0, 0, 0⟩⟩ : ElementMorphState).contentHash = simpleHash "a" ∧
      "" = "" ∧
      morphRafFireE (fun _ _ => none) "" initialMorphState "a"
        = .error (⟨[], simpleHash "a", ⟨0, 0, 0, 0⟩⟩, "") ∧
      morphContentSyncE (fun _ _ => none) "" ⟨[], simpleHash "a", ⟨0, 0, 0, 0⟩⟩ "a"
        = .ok (⟨[], simpleHash "a", ⟨0, 0, 0, 0⟩⟩, "") ∧
      ∀ (g : GlobalMorph) (e : Nat),
        g.states e = ⟨[], simpleHash "a", ⟨0, 0, 0, 0⟩⟩ →
          morphContentSched g e "a" = g) :=
  ⟨by rfl,
   morph_hash_stored_before_patch (fun _ _ => none) "" initialMorphState "a" _ _ (by rfl)⟩

theorem entriesSizeSum_nil : entriesSizeSum [] = 0 := rfl

theorem entriesSizeSum_cons (e : CacheEntry) (es : List CacheEntry) :
    entriesSizeSum (e :: es) = (e.size : Int) + entriesSizeSum es := by
  simp [entriesSizeSum]

theorem entriesSizeSum_append (l1 l2 : List CacheEntry) :
    entriesSizeSum (l1 ++ l2) = entriesSizeSum l1 + entriesSizeSum l2 := by
  simp [entriesSizeSum]

theorem entriesSizeSum_eraseP (key : String) :
    ∀ (es : List CacheEntry) (e : CacheEntry),
      es.find? (fun x => x.key == key) = some e →
      entriesSizeSum (es.eraseP (fun x => x.key == key))
        = entriesSizeSum es - (e.size : Int) := by
  intro es
  induction es with
  | nil =>
      intro e h
      simp [List.find?] at h
  | cons a as ih =>
      intro e h
      cases hb : (a.key == key) with
      | true =>
          simp only [List.find?_cons, hb] at h
          have ha : a = e := by injection h
          subst ha
          simp only [List.eraseP_cons, hb, cond_true]
          rw [entriesSizeSum_cons]
          ring
      | false =>
          simp only [List.find?_cons, hb] at h
          simp only [List.eraseP_cons, hb, cond_false]
          rw [entriesSizeSum_cons, entriesSizeSum_cons, ih e h]
          ring

theorem cacheInv_get (c : LRUCache) (key : String) (h : cacheInv c) :
    cacheInv (c.get key).2 := by
  unfold cacheInv LRUCache.get
  split
  · exact h
  · rename_i e hf
    simp only []
    rw [entriesSizeSum_append, entriesSizeSum_eraseP key c.entries e hf,
      entriesSizeSum_cons, entriesSizeSum_nil]
    unfold cacheInv at h
    linarith

theorem evictLoop_sum (mE : Nat) (mB : Option Nat) (nS : Nat) :
    ∀ (es : List CacheEntry) (tb : Int) (es2 : List CacheEntry) (tb2 : Int),
      evictLoop mE mB nS es tb = some (es2, tb2) →
      tb - entriesSizeSum es = tb2 - entriesSizeSum es2 := by
  intro es
  induction es with
  | nil =>
      intro tb es2 tb2 h
      simp only [evictLoop, Option.some.injEq, Prod.mk.injEq] at h
      rw [← h.1, ← h.2]
  | cons e es ih =>
      intro tb es2 tb2 h
      simp only [evictLoop] at h
      by_cases hc : mE ≤ (e :: es).length ∨ overBytes mB (tb + nS) = true
      · rw [if_pos hc] at h
        by_cases hk : e.key = ""
        · rw [if_pos hk] at h
          exact absurd h (by simp)
        · rw [if_neg hk] at h
          have hrec := ih (tb - (e.size : Int)) es2 tb2 h
          rw [entriesSizeSum_cons]
          linarith
      · rw [if_neg hc] at h
        simp only [Option.some.injEq, Prod.mk.injEq] at h
        rw [← h.1, ← h.2]

theorem evictLoop_post (mE : Nat) (mB : Option Nat) (nS : Nat) :
    ∀ (es : List CacheEntry) (tb : Int) (es2 : List CacheEntry) (tb2 : Int),
      evictLoop mE mB nS es tb = some (es2, tb2) →
      (es2.length < mE ∧ overBytes mB (tb2 + nS) = false) ∨ es2 = [] := by
  intro es
  induction es with
  | nil =>
      intro tb es2 tb2 h
      simp only [evictLoop, Option.some.injEq, Prod.mk.injEq] at h
      exact Or.inr h.1.symm
  | cons e es ih =>
      intro tb es2 tb2 h
      simp only [evictLoop] at h
      by_cases hc : mE ≤ (e :: es).length ∨ overBytes mB (tb + nS) = true
      · rw [if_pos hc] at h
        by_cases hk : e.key = ""
        · rw [if_pos hk] at h
          exact absurd h (by simp)
        · rw [if_neg hk] at h
          exact ih _ _ _ h
      · rw [if_neg hc] at h
        push_neg at hc
        obtain ⟨hlen, hover⟩ := hc
        simp only [Option.some.injEq, Prod.mk.injEq] at h
        refine Or.inl ⟨?_, ?_⟩
        · rw [← h.1]
          simp only [List.length_cons] at hlen ⊢
          omega
        · rw [← h.2]
          simpa using hover

theorem evictOldestGo_sum :
    ∀ (n : Nat) (es : List CacheEntry) (tb : Int),
      tb - entriesSizeSum es
        = (evictOldestGo n es tb).2 - entriesSizeSum (evictOldestGo n es tb).1 := by
  intro n
  induction n with
  | zero => intro es tb; rfl
  | succ k ih =>
      intro es tb
      cases es with
      | nil => rfl
      | cons e es =>
          simp only [evictOldestGo]
          by_cases hk : e.key = ""
          · rw [if_pos hk]
          · rw [if_neg hk]
            have hrec := ih es (tb - (e.size : Int))
            rw [entriesSizeSum_cons]
            linarith

theorem cacheInv_deleteForSet (c : LRUCache) (key : String) (h : cacheInv c) :
    (deleteForSet c key).2 = entriesSizeSum (deleteForSet c key).1 := by
  unfold deleteForSet
  split
  · rename_i e hf
    simp only []
    rw [entriesSizeSum_eraseP key c.entries e hf]
    unfold cacheInv at h
    linarith
  · exact h

theorem cacheInv_set (c : LRUCache) (key value : String) (sizeBytes : Option Nat)
    (c2 : LRUCache) (hinv : cacheInv c) (h : c.set key value sizeBytes = some c2) :
    cacheInv c2 := by
  have hdel := cacheInv_deleteForSet c key hinv
  simp only [LRUCache.set] at h
  split at h
  · exact absurd h (by simp)
  · rename_i es2 tb2 heq
    have hsum := evictLoop_sum _ _ _ _ _ _ _ heq
    simp only [Option.some.injEq] at h
    rw [← h]
    unfold cacheInv
    simp only []
    rw [entriesSizeSum_append, entriesSizeSum_cons, entriesSizeSum_nil]
    linarith

theorem cacheInv_applyOp (c c2 : LRUCache) (op : CacheOp) (hinv : cacheInv c)
    (h : applyOp c op = some c2) : cacheInv c2 := by
  cases op with
  | getOp key =>
      simp only [applyOp, Option.some.injEq] at h
      rw [← h]
      exact cacheInv_get c key hinv
  | setOp key value sizeBytes =>
      simp only [applyOp] at h
      exact cacheInv_set c key value sizeBytes c2 hinv h
  | hasOp key =>
      simp only [applyOp, Option.some.injEq] at h
      rw [← h]
      exact hinv
  | evictOldestOp count =>
      simp only [applyOp, Option.some.injEq] at h
      rw [← h]
      unfold cacheInv LRUCache.evictOldest
      simp only []
      have hrec := evictOldestGo_sum count c.entries c.totalBytes
      unfold cacheInv at hinv
      linarith
  | clearOp =>
      simp only [applyOp, Option.some.injEq] at h
      rw [← h]
      unfold cacheInv LRUCache.clear
      simp [entriesSizeSum_nil]

theorem cacheInv_runOps :
    ∀ (ops : List CacheOp) (c c2 : LRUCache),
      cacheInv c → runOps c ops = some c2 → cacheInv c2 := by
  intro ops
  induction ops with
  | nil =>
      intro c c2 hinv h
      simp only [runOps, Option.some.injEq] at h
      rw [← h]
      exact hinv
  | cons op ops ih =>
      intro c c2 hinv h
      simp only [runOps] at h
      cases hap : applyOp c op with
      | none => rw [hap] at h; simp at h
      | some c3 =>
          rw [hap] at h
          simp only [Option.some_bind] at h
          exact ih c3 c2 (cacheInv_applyOp c c3 op hinv hap) h

/-- C7: over any sequence of `get`/`set`/`has`/`evictOldest`/`clear`
operations on a fresh partition, the tracked byte counter reported by
`stats` equals the sum of the stored size estimates of the live entries. -/
theorem lruCache_totalBytes_eq_sum (maxEntries : Nat) (maxBytes : Option Nat)
    (ops : List CacheOp) (c : LRUCache)
    (h : runOps (LRUCache.empty maxEntries maxBytes) ops = some c) :
    c.stats.estimatedBytes = entriesSizeSum c.entries :=
  cacheInv_runOps ops (LRUCache.empty maxEntries maxBytes) c
    (by simp [cacheInv, LRUCache.empty, entriesSizeSum_nil]) h

/-- Witness for C7 at a concrete operation sequence. -/
theorem lruCache_totalBytes_eq_sum_witness :
    (runOps (LRUCache.empty 3 (some 100))
        [CacheOp.setOp "a" "bc" none, CacheOp.getOp "a", CacheOp.evictOldestOp 0]
      = some ⟨[⟨"a", "bc", 4⟩], 4, 3, some 100⟩) ∧
    (⟨[⟨"a", "bc", 4⟩], 4, 3, some 100⟩ : LRUCache).stats.estimatedBytes
      = entriesSizeSum (⟨[⟨"a", "bc", 4⟩], 4, 3, some 100⟩ : LRUCache).entries :=
  ⟨by decide,
   lruCache_totalBytes_eq_sum 3 (some 100)
     [CacheOp.setOp "a" "bc" none, CacheOp.getOp "a", CacheOp.evictOldestOp 0]
     ⟨[⟨"a", "bc", 4⟩], 4, 3, some 100⟩ (by decide)⟩

/-- C3 counterexample: the claim says `set` evicts until
`totalBytes + newSize <= maxBytes` holds and then inserts, which would keep
`totalBytes <= maxBytes` after every insert.  The source loop also stops
when the cache becomes empty, so an entry whose own estimated size (6)
exceeds `maxBytes` (4) is still inserted, leaving the tracked bytes over the
cap. -/
theorem lruCache_set_oversized_insert_cex :
    ((LRUCache.empty 3 (some 4)).set "k" "xyz" none).map LRUCache.totalBytes = some 6 ∧
    ((LRUCache.empty 3 (some 4)).set "k" "xyz" none).map
        (fun c => overBytes c.maxBytes c.totalBytes) = some true := by
  decide

/-- C3 amended: `set` first removes any prior entry for the key (adjusting
tracked bytes), estimates the entry size as `value.length * 2` when no hint
is given, then evicts the oldest entry until either both
`entryCount < maxEntries` and `totalBytes + newSize <= maxBytes` hold or the
cache is empty, and then inserts — so after the call the entry count is at
most `max maxEntries 1` and either the byte cap holds or the new entry is
alone in the cache.  Scenario D (maxEntries 3, inserting k1..k4) evicts k1
and leaves exactly 3 entries with `has(k1)` false and `has(k4)` true. -/
theorem lruCache_set_postconditions (c : LRUCache) (key value : String)
    (sizeBytes : Option Nat) (c2 : LRUCache)
    (h : c.set key value sizeBytes = some c2) :
    c2.entries.getLast? = some ⟨key, value, sizeBytes.getD (estimateSize value)⟩ ∧
    c2.stats.entries ≤ max c.maxEntries 1 ∧
    (overBytes c2.maxBytes c2.totalBytes = false ∨ c2.stats.entries = 1) ∧
    (scenarioD.map (fun x => x.stats.entries) = some 3 ∧
      scenarioD.map (fun x => x.has "k1") = some false ∧
      scenarioD.map (fun x => x.has "k4") = some true) ∧
    ((LRUCache.empty 3 (some 1000000)).set "a" "xx" none >>= fun d =>
        d.set "a" "yyyy" none)
      = some ⟨[⟨"a", "yyyy", 8⟩], 8, 3, some 1000000⟩ := by
  simp only [LRUCache.set] at h
  split at h
  · exact absurd h (by simp)
  · rename_i es2 tb2 heq
    have hpost := evictLoop_post _ _ _ _ _ _ _ heq
    simp only [Option.some.injEq] at h
    rw [← h]
    refine ⟨?_, ?_, ?_, by decide, by decide⟩
    · simp
    · simp only [LRUCache.stats, List.length_append, List.length_cons, List.length_nil]
      rcases hpost with ⟨hlen, _⟩ | hnil
      · omega
      · rw [hnil]
        simp only [List.nil_append, List.length_cons, List.length_nil]
        omega
    · rcases hpost with ⟨_, hover⟩ | hnil
      · exact Or.inl hover
      · refine Or.inr ?_
        rw [hnil]
        simp [LRUCache.stats]

/-- Witness for C3 (amended) at a concrete input. -/
theorem lruCache_set_postconditions_witness :
    ((LRUCache.empty 3 (some 1000000)).set "k1" "v1" none
      = some ⟨[⟨"k1", "v1", 4⟩], 4, 3, some 1000000⟩) ∧
    ((⟨[⟨"k1", "v1", 4⟩], 4, 3, some 1000000⟩ : LRUCache).entries.getLast?
        = some ⟨"k1", "v1", (none : Option Nat).getD (estimateSize "v1")⟩ ∧
      (⟨[⟨"k1", "v1", 4⟩], 4, 3, some 1000000⟩ : LRUCache).stats.entries
        ≤ max (LRUCache.empty 3 (some 1000000)).maxEntries 1 ∧
      (overBytes (⟨[⟨"k1", "v1", 4⟩], 4, 3, some 1000000⟩ : LRUCache).maxBytes
          (⟨[⟨"k1", "v1", 4⟩], 4, 3, some 1000000⟩ : LRUCache).totalBytes = false ∨
        (⟨[⟨"k1", "v1", 4⟩], 4, 3, some 1000000⟩ : LRUCache).stats.entries = 1) ∧
      (scenarioD.map (fun x => x.stats.entries) = some 3 ∧
        scenarioD.map (fun x => x.has "k1") = some false ∧
        scenarioD.map (fun x => x.has "k4") = some true) ∧
      ((LRUCache.empty 3 (some 1000000)).set "a" "xx" none >>= fun d =>
          d.set "a" "yyyy" none)
        = some ⟨[⟨"a", "yyyy", 8⟩], 8, 3, some 1000000⟩) :=
  ⟨by decide,
   lruCache_set_postconditions (LRUCache.empty 3 (some 1000000)) "k1" "v1" none
     ⟨[⟨"k1", "v1", 4⟩], 4, 3, some 1000000⟩ (by decide)⟩

/-- C4: after each recorded duration `d`, the operative interval (the value
`_effectiveThrottleMs` reads) equals
`clamp(prev + (d / 0.25 - prev) * 0.3, base, max(base * 4, 200))` where
`prev` is the previous operative interval (the base on the first recording,
since the field starts at the sentinel 0); consequently the operative
interval never drops below the base. -/
theorem adaptiveThrottle_formula (baseThrottle adaptive d : ℚ)
    (hbase : 0 ≤ baseThrottle) :
    effectiveThrottleMs (adjustAdaptiveThrottle baseThrottle adaptive d) baseThrottle =
      clampQ baseThrottle (max (baseThrottle * 4) 200)
        (effectiveThrottleMs adaptive baseThrottle +
          (d / (1 / 4) - effectiveThrottleMs adaptive baseThrottle) * (3 / 10)) ∧
    baseThrottle ≤
      effectiveThrottleMs (adjustAdaptiveThrottle baseThrottle adaptive d) baseThrottle := by
  have hA : adjustAdaptiveThrottle baseThrottle adaptive d =
      clampQ baseThrottle (max (baseThrottle * 4) 200)
        (effectiveThrottleMs adaptive baseThrottle +
          (d / (1 / 4) - effectiveThrottleMs adaptive baseThrottle) * (3 / 10)) := rfl
  have hbound : baseThrottle ≤ adjustAdaptiveThrottle baseThrottle adaptive d :=
    le_max_left _ _
  constructor
  · by_cases hz : adjustAdaptiveThrottle baseThrottle adaptive d = 0
    · have hb0 : baseThrottle = 0 := le_antisymm (hz ▸ hbound) hbase
      have heff : effectiveThrottleMs (adjustAdaptiveThrottle baseThrottle adaptive d)
          baseThrottle = baseThrottle := if_pos hz
      rw [heff, ← hA, hz, hb0]
    · have heff : effectiveThrottleMs (adjustAdaptiveThrottle baseThrottle adaptive d)
          baseThrottle = adjustAdaptiveThrottle baseThrottle adaptive d := if_neg hz
      rw [heff, hA]
  · by_cases hz : adjustAdaptiveThrottle baseThrottle adaptive d = 0
    · have heff : effectiveThrottleMs (adjustAdaptiveThrottle baseThrottle adaptive d)
          baseThrottle = baseThrottle := if_pos hz
      rw [heff]
    · have heff : effectiveThrottleMs (adjustAdaptiveThrottle baseThrottle adaptive d)
          baseThrottle = adjustAdaptiveThrottle baseThrottle adaptive d := if_neg hz
      rw [heff]
      exact hbound

/-- Witness for C4 at base 50, fresh state, duration 40. -/
theorem adaptiveThrottle_formula_witness :
    (effectiveThrottleMs (adjustAdaptiveThrottle 50 0 40) 50 =
      clampQ 50 (max (50 * 4) 200)
        (effectiveThrottleMs 0 50 + (40 / (1 / 4) - effectiveThrottleMs 0 50) * (3 / 10))) ∧
    (50 : ℚ) ≤ effectiveThrottleMs (adjustAdaptiveThrottle 50 0 40) 50 :=
  adaptiveThrottle_formula 50 0 40 (by norm_num)

theorem adjust_fifty_forty (s : ℚ) (h1 : 50 ≤ effectiveThrottleMs s 50)
    (h2 : effectiveThrottleMs s 50 < 160) :
    adjustAdaptiveThrottle 50 s 40 = (7 / 10) * effectiveThrottleMs s 50 + 48 := by
  show max 50 (min (max (50 * 4) 200)
      (effectiveThrottleMs s 50 +
        (40 / (1 / 4) - effectiveThrottleMs s 50) * (3 / 10))) =
    (7 / 10) * effectiveThrottleMs s 50 + 48
  have hmax : max ((50 : ℚ) * 4) 200 = 200 := by norm_num
  have hkey : effectiveThrottleMs s 50 +
      (40 / (1 / 4) - effectiveThrottleMs s 50) * (3 / 10)
      = (7 / 10) * effectiveThrottleMs s 50 + 48 := by ring
  rw [hmax, hkey, min_eq_right (by linarith), max_eq_right (by linarith)]

theorem pacingOperative_succ (n : Nat) (h1 : 50 ≤ pacingOperative n)
    (h2 : pacingOperative n < 160) :
    pacingOperative (n + 1) = (7 / 10) * pacingOperative n + 48 := by
  have hadj : pacingAdaptive (n + 1) = (7 / 10) * pacingOperative n + 48 :=
    adjust_fifty_forty (pacingAdaptive n) h1 h2
  have hpos : pacingAdaptive (n + 1) ≠ 0 := by
    rw [hadj]
    intro hc
    linarith
  unfold pacingOperative effectiveThrottleMs
  rw [if_neg hpos]
  exact hadj

theorem pacingOperative_inv (n : Nat) :
    50 ≤ pacingOperative n ∧ pacingOperative n < 160 := by
  induction n with
  | zero =>
      constructor <;> norm_num [pacingOperative, pacingAdaptive, effectiveThrottleMs]
  | succ k ih =>
      have hstep := pacingOperative_succ k ih.1 ih.2
      rw [hstep]
      constructor <;> linarith [ih.1, ih.2]

/-- C9: with base 50 and constant 40 ms durations, the operative interval
strictly increases toward the ideal 160 = 40 / 0.25: each recording
contracts the gap to 160 by the factor 7/10 while the interval stays below
160, hence within the clamp bound max(50 * 4, 200) = 200. -/
theorem pacing_monotone_toward_ideal (n : Nat) :
    pacingOperative n < pacingOperative (n + 1) ∧
    pacingOperative n < 160 ∧
    pacingOperative n ≤ max (50 * 4) 200 ∧
    160 - pacingOperative (n + 1) = (7 / 10) * (160 - pacingOperative n) := by
  obtain ⟨h1, h2⟩ := pacingOperative_inv n
  have hstep := pacingOperative_succ n h1 h2
  have hm : ((200 : ℚ) = max (50 * 4) 200) := by norm_num
  refine ⟨by rw [hstep]; linarith, h2, by rw [← hm]; linarith, by rw [hstep]; ring⟩

end MarkdownViewer
